import Mathlib

/-!
Verification of the TaleCast download-tracking core.

The embedding models `src/download_tracker.rs` (the append-only dedup
ledger: `DownloadedEpisodes::load`, `::append`, `::contains_episode`) and
the sync-selection pipeline of `src/main.rs`.  Strings are lists of
characters; the Rust string primitives used by the tracker
(`str::trim`, `str::lines`, `str::split_whitespace`) are embedded as
executable functions below.  Components of the repository that are not
part of the two source files (the episode type, the podcast-config
collection, the regex engine of the `regex` crate, and the concurrent
sync orchestrator) are modelled from the specification; each such
definition says so in its doc comment.
-/

namespace TaleCast

/-- Strings are modelled as lists of characters. -/
abbrev Str := List Char

/-- Unicode White_Space test, mirroring Rust's `char::is_whitespace`
(the classifier used by `str::trim` and `str::split_whitespace`). -/
def isWs (c : Char) : Bool :=
  let n := c.toNat
  n == 0x09 || n == 0x0A || n == 0x0B || n == 0x0C || n == 0x0D ||
  n == 0x20 || n == 0x85 || n == 0xA0 || n == 0x1680 ||
  (0x2000 ≤ n && n ≤ 0x200A) || n == 0x2028 || n == 0x2029 ||
  n == 0x202F || n == 0x205F || n == 0x3000

theorem isWs_space : isWs ' ' = true := by decide

theorem isWs_newline : isWs '\n' = true := by decide

theorem isWs_cr : isWs '\r' = true := by decide

/-! ### Generic list helpers -/

theorem mem_of_head? {l : List α} {a : α} (h : l.head? = some a) : a ∈ l := by
  cases l with
  | nil => simp at h
  | cons x t => simp at h; simp [h]

theorem dropWhile_getLast? {p : α → Bool} {l : List α}
    (h : l.dropWhile p ≠ []) : (l.dropWhile p).getLast? = l.getLast? := by
  induction l with
  | nil => simp at h
  | cons c t ih =>
    by_cases hc : p c
    · have ht : t.dropWhile p ≠ [] := by simpa [List.dropWhile, hc] using h
      rw [List.dropWhile_cons, if_pos hc, ih ht]
      cases t with
      | nil => simp [List.dropWhile] at ht
      | cons d u => simp [List.getLast?_cons_cons]
    · simp [List.dropWhile_cons, hc]

theorem dropWhile_ne_nil_of_mem {p : α → Bool} {l : List α} {a : α}
    (ha : a ∈ l) (hpa : p a = false) : l.dropWhile p ≠ [] := by
  induction l with
  | nil => simp at ha
  | cons c t ih =>
    by_cases hc : p c
    · rw [List.dropWhile_cons, if_pos hc]
      rcases List.mem_cons.mp ha with h | h
      · subst h; simp [hc] at hpa
      · exact ih h
    · simp [List.dropWhile_cons, hc]

theorem dropWhile_eq_nil_of_all {p : α → Bool} {l : List α}
    (h : ∀ a ∈ l, p a = true) : l.dropWhile p = [] := by
  induction l with
  | nil => rfl
  | cons c t ih =>
    have hc := h c (by simp)
    simp only [List.dropWhile_cons, hc, if_pos]
    exact ih fun a ha => h a (by simp [ha])

theorem takeWhile_eq_self_of_all {p : α → Bool} {l : List α}
    (h : ∀ a ∈ l, p a = true) : l.takeWhile p = l := by
  induction l with
  | nil => rfl
  | cons c t ih =>
    have hc := h c (by simp)
    simp only [List.takeWhile_cons, hc, if_pos]
    rw [ih fun a ha => h a (by simp [ha])]

theorem takeWhile_append_stop (p : α → Bool) (c : α) (hc : p c = false)
    (x z : List α) : (x ++ c :: z).takeWhile p = x.takeWhile p := by
  induction x with
  | nil => simp [List.takeWhile_cons, hc]
  | cons a t ih =>
    by_cases ha : p a
    · simp [List.takeWhile_cons, ha, ih]
    · simp [List.takeWhile_cons, ha]

theorem dropWhile_append_stop (p : α → Bool) (c : α) (hc : p c = false)
    (x z : List α) : (x ++ c :: z).dropWhile p = x.dropWhile p ++ c :: z := by
  induction x with
  | nil => simp [List.dropWhile_cons, hc]
  | cons a t ih =>
    by_cases ha : p a
    · simp [List.dropWhile_cons, ha, ih]
    · simp [List.dropWhile_cons, ha]

theorem getLast?_append_of_getLast? {y : List α} {c : α}
    (h : y.getLast? = some c) (x : List α) : (x ++ y).getLast? = some c := by
  rcases List.getLast?_eq_some_iff.mp h with ⟨ys, rfl⟩
  rw [← List.append_assoc]
  simp

/-! ### `str::split_whitespace`

Fuel-indexed so that the definition is structurally recursive (and hence
computable by the kernel); `splitWs` instantiates the fuel with the
length of the string, which the congruence lemma shows is enough. -/

def splitWsF : Nat → Str → List Str
  | _, [] => []
  | 0, _ :: _ => []
  | f + 1, c :: rest =>
    if isWs c then splitWsF f rest
    else (c :: rest.takeWhile (fun d => !isWs d)) ::
      splitWsF f (rest.dropWhile (fun d => !isWs d))

/-- Rust's `str::split_whitespace`: the maximal whitespace-free tokens. -/
def splitWs (s : Str) : List Str := splitWsF s.length s

theorem splitWsF_congr : ∀ f₁ f₂ s, s.length ≤ f₁ → s.length ≤ f₂ →
    splitWsF f₁ s = splitWsF f₂ s := by
  intro f₁
  induction f₁ with
  | zero =>
    intro f₂ s h₁ _
    have : s = [] := List.length_eq_zero.mp (Nat.le_zero.mp h₁)
    subst this
    cases f₂ <;> rfl
  | succ f ih =>
    intro f₂ s h₁ h₂
    cases s with
    | nil => cases f₂ <;> rfl
    | cons c rest =>
      cases f₂ with
      | zero => simp at h₂
      | succ f₂' =>
        simp only [splitWsF]
        by_cases hc : isWs c
        · simp only [hc, if_pos]
          exact ih f₂' rest (by simpa using h₁) (by simpa using h₂)
        · simp only [hc, if_neg, Bool.false_eq_true, not_false_iff]
          have hlen : (rest.dropWhile (fun d => !isWs d)).length ≤ rest.length :=
            (List.dropWhile_sublist _).length_le
          rw [ih f₂' (rest.dropWhile (fun d => !isWs d))
            (Nat.le_trans hlen (by simpa using h₁))
            (Nat.le_trans hlen (by simpa using h₂))]

theorem splitWs_nil : splitWs [] = [] := rfl

theorem splitWs_cons_ws {c : Char} (hc : isWs c = true) (rest : Str) :
    splitWs (c :: rest) = splitWs rest := by
  simp only [splitWs, List.length_cons, splitWsF, hc, if_pos]

theorem splitWs_cons_tok {c : Char} (hc : isWs c = false) (rest : Str) :
    splitWs (c :: rest) = (c :: rest.takeWhile (fun d => !isWs d)) ::
      splitWs (rest.dropWhile (fun d => !isWs d)) := by
  simp only [splitWs, List.length_cons, splitWsF, hc, Bool.false_eq_true,
    if_neg, not_false_iff]
  congr 1
  exact splitWsF_congr _ _ _ (le_of_le_of_eq (List.dropWhile_sublist _).length_le
    (by rfl)) le_rfl

theorem splitWs_append_ws {c : Char} (hc : isWs c = true) :
    ∀ x z : Str, splitWs (x ++ c :: z) = splitWs x ++ splitWs z := by
  have main : ∀ f x z, x.length ≤ f →
      splitWs (x ++ c :: z) = splitWs x ++ splitWs z := by
    intro f
    induction f with
    | zero =>
      intro x z hx
      have : x = [] := List.length_eq_zero.mp (Nat.le_zero.mp hx)
      subst this
      simp [splitWs_nil, splitWs_cons_ws hc]
    | succ f ih =>
      intro x z hx
      cases x with
      | nil => simp [splitWs_nil, splitWs_cons_ws hc]
      | cons a t =>
        by_cases ha : isWs a
        · rw [List.cons_append, splitWs_cons_ws ha, splitWs_cons_ws ha]
          exact ih t z (by simpa using hx)
        · have ha' : isWs a = false := by simpa using ha
          have hqc : (fun d => !isWs d) c = false := by simp [hc]
          rw [List.cons_append, splitWs_cons_tok ha', splitWs_cons_tok ha',
            takeWhile_append_stop (fun d => !isWs d) c hqc t z,
            dropWhile_append_stop (fun d => !isWs d) c hqc t z]
          rw [ih (t.dropWhile (fun d => !isWs d)) z
            (Nat.le_trans (List.dropWhile_sublist _).length_le (by simpa using hx))]
          simp
  intro x z
  exact main x.length x z le_rfl

theorem splitWs_no_ws {s : Str} (hne : s ≠ [])
    (h : ∀ c ∈ s, isWs c = false) : splitWs s = [s] := by
  cases s with
  | nil => exact absurd rfl hne
  | cons c t =>
    have hc : isWs c = false := h c (by simp)
    have ht : ∀ d ∈ t, isWs d = false := fun d hd => h d (by simp [hd])
    rw [splitWs_cons_tok hc,
      takeWhile_eq_self_of_all (fun d hd => by simp [ht d hd]),
      dropWhile_eq_nil_of_all (fun d hd => by simp [ht d hd]),
      splitWs_nil]

theorem splitWs_tokens {s : Str} :
    ∀ t ∈ splitWs s, t ≠ [] ∧ ∀ c ∈ t, isWs c = false := by
  have main : ∀ f s, List.length s ≤ f →
      ∀ t ∈ splitWs s, t ≠ [] ∧ ∀ c ∈ t, isWs c = false := by
    intro f
    induction f with
    | zero =>
      intro s hs
      have : s = [] := List.length_eq_zero.mp (Nat.le_zero.mp hs)
      subst this
      simp [splitWs_nil]
    | succ f ih =>
      intro s hs t ht
      cases s with
      | nil => simp [splitWs_nil] at ht
      | cons a u =>
        by_cases ha : isWs a
        · rw [splitWs_cons_ws ha] at ht
          exact ih u (by simpa using hs) t ht
        · have ha' : isWs a = false := by simpa using ha
          rw [splitWs_cons_tok ha'] at ht
          rcases List.mem_cons.mp ht with h | h
          · subst h
            refine ⟨by simp, ?_⟩
            intro c hc
            rcases List.mem_cons.mp hc with h | h
            · subst h; exact ha'
            · have := List.mem_takeWhile_imp h
              simpa using this
          · exact ih (u.dropWhile (fun d => !isWs d))
              (Nat.le_trans (List.dropWhile_sublist _).length_le (by simpa using hs)) t h
  exact main s.length s le_rfl

theorem splitWs_dropWhile_ws (s : Str) :
    splitWs (s.dropWhile isWs) = splitWs s := by
  induction s with
  | nil => rfl
  | cons c t ih =>
    by_cases hc : isWs c
    · rw [List.dropWhile_cons, if_pos hc, ih, splitWs_cons_ws hc]
    · rw [List.dropWhile_cons, if_neg hc]

/-! ### `str::lines` and `str::trim` -/

/-- Split a string at every newline character.  The result always has one
more fragment than the string has newlines; in particular it is nonempty. -/
def splitNl : Str → List Str
  | [] => [[]]
  | c :: rest =>
    if c = '\n' then [] :: splitNl rest
    else
      match splitNl rest with
      | [] => [[c]]
      | l :: ls => (c :: l) :: ls

theorem splitNl_ne_nil (s : Str) : splitNl s ≠ [] := by
  cases s with
  | nil => simp [splitNl]
  | cons c rest =>
    by_cases hc : c = '\n'
    · simp [splitNl, hc]
    · simp only [splitNl, hc, if_neg, not_false_iff]
      cases splitNl rest <;> simp

theorem splitNl_cons_nl (rest : Str) :
    splitNl ('\n' :: rest) = [] :: splitNl rest := by
  simp [splitNl]

theorem splitNl_cons_of {c : Char} (hc : c ≠ '\n') {rest : Str} {l : Str}
    {ls : List Str} (h : splitNl rest = l :: ls) :
    splitNl (c :: rest) = (c :: l) :: ls := by
  simp only [splitNl, hc, if_neg, not_false_iff, h]

theorem splitNl_append_nl (p q : Str) :
    splitNl (p ++ '\n' :: q) = splitNl p ++ splitNl q := by
  induction p with
  | nil =>
    rw [List.nil_append, splitNl_cons_nl]
    rfl
  | cons c t ih =>
    rw [List.cons_append]
    by_cases hc : c = '\n'
    · subst hc
      rw [splitNl_cons_nl, splitNl_cons_nl, ih, List.cons_append]
    · rcases hne : splitNl t with _ | ⟨l, ls⟩
      · exact absurd hne (splitNl_ne_nil t)
      · have hx : splitNl (t ++ '\n' :: q) = l :: (ls ++ splitNl q) := by
          rw [ih, hne]
          rfl
        rw [splitNl_cons_of hc hx, splitNl_cons_of hc hne]
        rfl

theorem splitNl_no_nl {s : Str} (h : '\n' ∉ s) : splitNl s = [s] := by
  induction s with
  | nil => rfl
  | cons c t ih =>
    have hc : c ≠ '\n' := fun hh => h (by simp [hh])
    have ht : '\n' ∉ t := fun hh => h (by simp [hh])
    simp only [splitNl, hc, if_neg, not_false_iff, ih ht]

/-- Appending newline-free text extends the final fragment. -/
theorem splitNl_append_no_nl {y : Str} (hy : '\n' ∉ y) :
    ∀ x : Str, ∃ init last, splitNl x = init ++ [last] ∧
      splitNl (x ++ y) = init ++ [last ++ y] := by
  intro x
  induction x with
  | nil =>
    refine ⟨[], [], rfl, ?_⟩
    rw [List.nil_append, splitNl_no_nl hy]
    rfl
  | cons c t ih =>
    rcases ih with ⟨init, last, h1, h2⟩
    by_cases hc : c = '\n'
    · subst hc
      refine ⟨[] :: init, last, ?_, ?_⟩
      · rw [splitNl_cons_nl, h1]
        rfl
      · rw [List.cons_append, splitNl_cons_nl, h2]
        rfl
    · cases init with
      | nil =>
        refine ⟨[], c :: last, ?_, ?_⟩
        · rw [splitNl_cons_of hc (by simpa using h1)]
          rfl
        · rw [List.cons_append, splitNl_cons_of hc (by simpa using h2)]
          rfl
      | cons i₀ init' =>
        refine ⟨(c :: i₀) :: init', last, ?_, ?_⟩
        · have hh : splitNl t = i₀ :: (init' ++ [last]) := by simpa using h1
          rw [splitNl_cons_of hc hh]
          rfl
        · have hh : splitNl (t ++ y) = i₀ :: (init' ++ [last ++ y]) := by
            simpa using h2
          rw [List.cons_append, splitNl_cons_of hc hh]
          rfl

/-- `str::lines` strips one trailing carriage return from each line. -/
def stripCr (l : Str) : Str :=
  if l.getLast? = some '\r' then l.dropLast else l

theorem stripCr_eq_self {l : Str} (h : l.getLast? ≠ some '\r') :
    stripCr l = l := by
  simp [stripCr, h]

/-- `str::lines` does not yield a final empty line for a terminating
newline: the trailing empty fragment is dropped. -/
def dropLastEmpty (ls : List Str) : List Str :=
  if ls.getLast? = some [] then ls.dropLast else ls

/-- Rust's `str::lines`. -/
def linesOf (s : Str) : List Str := (dropLastEmpty (splitNl s)).map stripCr

/-- Rust's `str::trim_start`. -/
def trimStart (s : Str) : Str := s.dropWhile isWs

/-- Rust's `str::trim_end`. -/
def trimEnd (s : Str) : Str := (s.reverse.dropWhile isWs).reverse

/-- Rust's `str::trim`. -/
def trim (s : Str) : Str := trimEnd (trimStart s)

theorem trimStart_append (x y : Str) :
    trimStart (x ++ y) = if trimStart x = [] then trimStart y
      else trimStart x ++ y := by
  induction x with
  | nil => simp [trimStart]
  | cons c t ih =>
    by_cases hc : isWs c
    · simpa [trimStart, List.dropWhile_cons, hc] using ih
    · simp [trimStart, List.dropWhile_cons, hc]

theorem trimEnd_append_ws {c : Char} (hc : isWs c = true) (x : Str) :
    trimEnd (x ++ [c]) = trimEnd x := by
  simp [trimEnd, List.dropWhile_cons, hc]

theorem trimEnd_eq_self {s : Str} {c : Char} (h : s.getLast? = some c)
    (hc : isWs c = false) : trimEnd s = s := by
  rcases List.getLast?_eq_some_iff.mp h with ⟨ys, rfl⟩
  simp [trimEnd, List.dropWhile_cons, hc]

theorem trimStart_eq_nil_of_all {s : Str} (h : ∀ c ∈ s, isWs c = true) :
    trimStart s = [] := dropWhile_eq_nil_of_all h

theorem mem_of_mem_trimStart {s : Str} {c : Char} (h : c ∈ trimStart s) :
    c ∈ s := (List.dropWhile_sublist isWs).subset h

/-! ### First whitespace-delimited token of a line

This is what the load loop does per line: `line.split_whitespace().next()`. -/

def firstToken (line : Str) : Option Str := (splitWs line).head?

theorem firstToken_nil : firstToken [] = none := rfl

theorem firstToken_append_tail {x : Str} (hne : x ≠ [])
    (hx : ∀ c ∈ x, isWs c = false) (z : Str) :
    firstToken (x ++ ' ' :: z) = some x := by
  unfold firstToken
  rw [splitWs_append_ws isWs_space, splitWs_no_ws hne hx]
  rfl

theorem firstToken_append_single_ws {x : Str} {c : Char}
    (hc : isWs c = true) : firstToken (x ++ [c]) = firstToken x := by
  unfold firstToken
  rw [splitWs_append_ws hc x [], splitWs_nil, List.append_nil]

theorem firstToken_stripCr (l : Str) : firstToken (stripCr l) = firstToken l := by
  unfold stripCr
  by_cases h : l.getLast? = some '\r'
  · rcases List.getLast?_eq_some_iff.mp h with ⟨ys, rfl⟩
    rw [if_pos h, List.dropLast_concat, firstToken_append_single_ws isWs_cr]
  · rw [if_neg h]

theorem firstToken_trimStart (s : Str) :
    firstToken (trimStart s) = firstToken s := by
  unfold firstToken trimStart
  rw [splitWs_dropWhile_ws]

theorem mem_of_firstToken {l t : Str} (h : firstToken l = some t) :
    t ∈ splitWs l := mem_of_head? h

/-! ### Decimal formatting of the unix timestamp

Rust's `Display` for `u64` (used by the `{}` in the `writeln!`): the
usual base-ten digit string.  Fuel-indexed for structural recursion. -/

def natDecF : Nat → Nat → Str
  | 0, _ => []
  | f + 1, n =>
    if n < 10 then [Nat.digitChar n]
    else natDecF f (n / 10) ++ [Nat.digitChar (n % 10)]

def natDecimal (n : Nat) : Str := natDecF (n + 1) n

theorem digitChar_lt_ten {m : Nat} (h : m < 10) :
    isWs (Nat.digitChar m) = false ∧ Nat.digitChar m ≠ '\n' ∧
      Nat.digitChar m ≠ '"' := by
  interval_cases m <;> exact ⟨by decide, by decide, by decide⟩

theorem natDecF_chars : ∀ f n c, c ∈ natDecF f n →
    isWs c = false ∧ c ≠ '\n' ∧ c ≠ '"' := by
  intro f
  induction f with
  | zero => intro n c h; simp [natDecF] at h
  | succ f ih =>
    intro n c h
    by_cases hn : n < 10
    · simp only [natDecF, hn, if_pos, List.mem_singleton] at h
      subst h
      exact digitChar_lt_ten hn
    · simp only [natDecF, hn, if_neg, not_false_iff, List.mem_append,
        List.mem_singleton] at h
      rcases h with h | h
      · exact ih (n / 10) c h
      · subst h
        exact digitChar_lt_ten (Nat.mod_lt n (by omega))

theorem natDecimal_chars {n : Nat} {c : Char} (h : c ∈ natDecimal n) :
    isWs c = false ∧ c ≠ '\n' ∧ c ≠ '"' := natDecF_chars (n + 1) n c h

theorem natDecimal_ne_nil (n : Nat) : natDecimal n ≠ [] := by
  unfold natDecimal natDecF
  by_cases hn : n < 10
  · simp [hn]
  · simp [hn]

/-! ### The download tracker (`src/download_tracker.rs`) -/

/-- State of the filesystem at the tracker path: missing, a directory, or
a regular file with the given content. -/
inductive FsNode where
  | absent
  | directory
  | file (content : Str)
deriving DecidableEq

/-- `DownloadedEpisodes(HashSet<String>)`: the in-memory membership set.
A list with membership semantics stands in for the hash set. -/
structure DownloadedEpisodes where
  ids : List Str
deriving DecidableEq

/-- `DownloadedEpisodes::contains_episode`: `self.0.contains(episode_id)`. -/
def contains_episode (d : DownloadedEpisodes) (episode_id : Str) : Bool :=
  d.ids.contains episode_id

/-- The parsing loop of `DownloadedEpisodes::load`: for each line of
`s.trim().lines()`, insert the first `split_whitespace` token. -/
def parseContent (s : Str) : List Str :=
  (linesOf (trim s)).filterMap firstToken

/-- Outcome of `DownloadedEpisodes::load`: the Rust function either
returns the set or panics (the `e.unwrap()` arm for read errors other
than `NotFound`). -/
inductive LoadResult where
  | ok (d : DownloadedEpisodes)
  | panicked
deriving DecidableEq

/-- `DownloadedEpisodes::load`: a missing file yields the empty default
set; any other read error panics via `unwrap`; otherwise each line
contributes its first whitespace-delimited token. -/
def load : FsNode → LoadResult
  | .absent => .ok ⟨[]⟩
  | .directory => .panicked
  | .file s => .ok ⟨parseContent s⟩

/-- Modelled from `src/episode.rs`, which is not under src/: `append`
only consults `episode.inner().attrs.title()`, so the episode is
represented by its title. -/
structure DownloadedEpisode where
  title : Str
deriving DecidableEq

/-- The bytes of the record produced by
`writeln!(file, "{} {} \"{}\"", id, ts, title)` before the final
newline that `writeln!` adds. -/
def recordLine (id : Str) (ts : Nat) (title : Str) : Str :=
  id ++ [' '] ++ natDecimal ts ++ [' ', '"'] ++ title ++ ['"']

/-- How the I/O layer behaves for this append: whether
`OpenOptions::open` succeeds and whether the `writeln!` succeeds. -/
structure IoEnv where
  openOk : Bool
  writeOk : Bool
deriving DecidableEq

/-- Outcome of `DownloadedEpisodes::append`. `ok` carries the file
content after the append (open with `.append(true).create(true)`
concatenates onto the existing bytes, or creates the file). -/
inductive AppendResult where
  | ok (newContent : Str)
  | ioError (msg : String)
  | processExit (code : Nat)
  | panicked
deriving DecidableEq

/-- `DownloadedEpisodes::append`: if the path is a directory the Rust
code prints to stderr and calls `std::process::exit(1)`; a failed open
returns `Err("failed to open tracker file")`; a failed write panics via
`.unwrap()`; otherwise one record line is appended to the file. -/
def append (io : IoEnv) (node : FsNode) (id : Str) (ts : Nat)
    (episode : DownloadedEpisode) : AppendResult :=
  match node with
  | .directory => .processExit 1
  | .absent =>
    if !io.openOk then .ioError "failed to open tracker file"
    else if !io.writeOk then .panicked
    else .ok (recordLine id ts episode.title ++ ['\n'])
  | .file prior =>
    if !io.openOk then .ioError "failed to open tracker file"
    else if !io.writeOk then .panicked
    else .ok (prior ++ recordLine id ts episode.title ++ ['\n'])

/-! ### Normal form for `parseContent` and the append effect -/

theorem filterMap_firstToken_single (x : Str) :
    List.filterMap firstToken [x] = (firstToken x).toList := by
  cases h : firstToken x <;> simp [List.filterMap_cons, h]

theorem filterMap_firstToken_dropLastEmpty (ls : List Str) :
    (dropLastEmpty ls).filterMap firstToken = ls.filterMap firstToken := by
  unfold dropLastEmpty
  by_cases h : ls.getLast? = some []
  · rcases List.getLast?_eq_some_iff.mp h with ⟨ys, rfl⟩
    rw [if_pos h, List.dropLast_concat, List.filterMap_append,
      filterMap_firstToken_single, firstToken_nil]
    simp
  · rw [if_neg h]

theorem filterMap_firstToken_map_stripCr (ls : List Str) :
    (ls.map stripCr).filterMap firstToken = ls.filterMap firstToken := by
  rw [List.filterMap_map]
  have : firstToken ∘ stripCr = firstToken := by
    funext l
    exact firstToken_stripCr l
  rw [this]

/-- `parseContent` ignores the line-oriented cleanup performed by
`lines` (carriage-return stripping and the dropped trailing empty
fragment): it is the per-newline-fragment first-token map. -/
theorem parseContent_norm (s : Str) :
    parseContent s = (splitNl (trim s)).filterMap firstToken := by
  unfold parseContent linesOf
  rw [filterMap_firstToken_map_stripCr, filterMap_firstToken_dropLastEmpty]

theorem filterMap_firstToken_snoc_ws {c : Char} (hc : isWs c = true)
    (x : Str) : (splitNl (x ++ [c])).filterMap firstToken
      = (splitNl x).filterMap firstToken := by
  by_cases hnl : c = '\n'
  · subst hnl
    have h : splitNl (x ++ ['\n']) = splitNl x ++ [[]] := by
      have h0 := splitNl_append_nl x []
      simpa [splitNl] using h0
    rw [h, List.filterMap_append, filterMap_firstToken_single, firstToken_nil]
    simp
  · have hy : '\n' ∉ [c] := by
      intro hm
      have hm' : '\n' = c := by simpa using hm
      exact hnl hm'.symm
    rcases splitNl_append_no_nl hy x with ⟨init, last, h1, h2⟩
    rw [h1, h2, List.filterMap_append, List.filterMap_append,
      filterMap_firstToken_single, filterMap_firstToken_single,
      firstToken_append_single_ws hc]

theorem filterMap_firstToken_trimEnd (q : Str) :
    (splitNl (trimEnd q)).filterMap firstToken
      = (splitNl q).filterMap firstToken := by
  have main : ∀ R : Str,
      (splitNl ((R.dropWhile isWs).reverse)).filterMap firstToken
        = (splitNl R.reverse).filterMap firstToken := by
    intro R
    induction R with
    | nil => rfl
    | cons c t ih =>
      by_cases hc : isWs c
      · rw [List.dropWhile_cons, if_pos hc, ih, List.reverse_cons,
          filterMap_firstToken_snoc_ws hc t.reverse]
      · rw [List.dropWhile_cons, if_neg hc]
  have h := main q.reverse
  rw [List.reverse_reverse] at h
  exact h

/-- The effect of one appended record on the parsed id list: appending
`rec ++ "\n"` to a prior content that is empty or newline-terminated
adds exactly the first token of `rec` (if any) to the parse, keeping
everything parsed before. `rec` must be newline-free with a
non-whitespace final character (every record the tracker writes ends in
a quote). -/
theorem parse_append {p rec : Str}
    (hp : p = [] ∨ p.getLast? = some '\n')
    (hnl : '\n' ∉ rec) {e : Char} (hlast : rec.getLast? = some e)
    (hws : isWs e = false) :
    parseContent (p ++ rec ++ ['\n'])
      = parseContent p ++ (firstToken rec).toList := by
  have hemem : e ∈ rec := by
    rcases List.getLast?_eq_some_iff.mp hlast with ⟨ys, rfl⟩
    simp
  rw [parseContent_norm, parseContent_norm, List.append_assoc]
  by_cases hps : trimStart p = []
  · have htrs : trimStart rec ≠ [] := dropWhile_ne_nil_of_mem hemem hws
    have h1 : trim (p ++ (rec ++ ['\n'])) = trimStart rec := by
      unfold trim
      rw [trimStart_append, if_pos hps, trimStart_append, if_neg htrs,
        trimEnd_append_ws isWs_newline]
      exact trimEnd_eq_self ((dropWhile_getLast? htrs).trans hlast) hws
    have h2 : trim p = [] := by
      unfold trim
      rw [hps]
      rfl
    rw [h1, h2]
    have h3 : '\n' ∉ trimStart rec := fun hm => hnl (mem_of_mem_trimStart hm)
    rw [splitNl_no_nl h3, filterMap_firstToken_single, firstToken_trimStart]
    rfl
  · have hpne : p ≠ [] := by
      intro hh
      exact hps (by simp [hh, trimStart])
    have hplast : p.getLast? = some '\n' := hp.resolve_left hpne
    have hP : (trimStart p).getLast? = some '\n' :=
      (dropWhile_getLast? hps).trans hplast
    rcases List.getLast?_eq_some_iff.mp hP with ⟨Q, hQ⟩
    have h1 : trim (p ++ (rec ++ ['\n'])) = Q ++ '\n' :: rec := by
      unfold trim
      rw [trimStart_append, if_neg hps, ← List.append_assoc,
        trimEnd_append_ws isWs_newline,
        trimEnd_eq_self (getLast?_append_of_getLast? hlast (trimStart p)) hws,
        hQ, List.append_assoc]
      rfl
    have h2 : trim p = trimEnd Q := by
      unfold trim
      rw [hQ, trimEnd_append_ws isWs_newline]
    rw [h1, h2, splitNl_append_nl, List.filterMap_append, splitNl_no_nl hnl,
      filterMap_firstToken_single, filterMap_firstToken_trimEnd]

theorem contains_episode_iff (d : DownloadedEpisodes) (x : Str) :
    contains_episode d x = true ↔ x ∈ d.ids := by
  unfold contains_episode
  exact List.elem_iff

/-- The ids produced by `load` never contain whitespace: they are
`split_whitespace` tokens. -/
theorem parseContent_no_ws {s x : Str} (h : x ∈ parseContent s) :
    ∀ c ∈ x, isWs c = false := by
  rcases List.mem_filterMap.mp h with ⟨l, _, hft⟩
  exact fun c hc => (splitWs_tokens x (mem_of_firstToken hft)).2 c hc

/-! ### The sync-selection pipeline of `src/main.rs`

`main.rs` compiles the `--filter` argument with
`Regex::new(&format!("(?i){}", filter))` and runs
`PodcastConfigs::load().assert_not_empty().filter(filter).sync(...)`.
The regex engine and the `PodcastConfigs` methods live outside the two
source files, so they are modelled from the specification. -/

/-- Boolean prefix test on character lists. -/
def isPrefixOfStr : Str → Str → Bool
  | [], _ => true
  | _ :: _, [] => false
  | a :: x, b :: y => a == b && isPrefixOfStr x y

/-- Boolean substring test on character lists. -/
def isSubOf (needle : Str) : Str → Bool
  | [] => isPrefixOfStr needle []
  | b :: t => isPrefixOfStr needle (b :: t) || isSubOf needle t

/-- A compiled filter regex.  Modelled from the spec: the `regex` crate
is an external collaborator, restricted here to literal patterns, for
which an unanchored regex match is a substring test; the `(?i)` flag
makes it case-insensitive. -/
structure Pattern where
  caseInsensitive : Bool
  literal : Str
deriving DecidableEq

def lowerStr (s : Str) : Str := s.map Char.toLower

/-- Modelled from the spec: "case-insensitive regular-expression match
against subscription name", for a literal pattern. -/
def isMatch (p : Pattern) (s : Str) : Bool :=
  if p.caseInsensitive then isSubOf (lowerStr p.literal) (lowerStr s)
  else isSubOf p.literal s

/-- `main.rs`: `Regex::new(&format!("(?i){}", filter))` — the compiled
filter is the pattern with the case-insensitive flag set. -/
def compileFilter (pat : Str) : Pattern := ⟨true, pat⟩

/-- Modelled from `src/config.rs`, which is not under src/: a podcast
configuration, of which only the name key matters here. -/
structure PodcastConfig where
  url : Str
deriving DecidableEq

/-- The mapping of unique subscription names to configurations. -/
structure PodcastConfigs where
  entries : List (Str × PodcastConfig)
deriving DecidableEq

/-- Modelled from the spec: `PodcastConfigs::filter` keeps the
subscriptions whose name matches the (optional) compiled filter. -/
def filterConfigs (cfgs : PodcastConfigs) (filt : Option Pattern) :
    PodcastConfigs :=
  match filt with
  | none => cfgs
  | some p => ⟨cfgs.entries.filter fun e => isMatch p e.1⟩

/-- Modelled from the spec: `PodcastConfigs::assert_not_empty` fails
fast with a user-visible error when the mapping it is called on is
empty; `none` models that failure. -/
def assert_not_empty (cfgs : PodcastConfigs) : Option PodcastConfigs :=
  if cfgs.entries = [] then none else some cfgs

/-- The `Action::Sync` arm of `main`, in the order the source writes it:
`PodcastConfigs::load().assert_not_empty().filter(filter)` — the
emptiness check runs first, on the unfiltered mapping, and the name
filter is applied afterwards. -/
def syncSelection (cfgs : PodcastConfigs) (filt : Option Pattern) :
    Option PodcastConfigs :=
  (assert_not_empty cfgs).map (fun c => filterConfigs c filt)

/-! ### The at-most-once download discipline (spec sections 4.4 and 5)

The sync orchestrator, its workers and the Download Executor are not
under src/; the interleaving discipline below is modelled from the
spec: checks read the shared membership set, and a worker invokes the
Download Executor only after its own check of the id came back false,
with the check-then-append sequence serialized per id so that no other
append of the same id intervenes. -/

/-- One observable event of a sync run: worker `w` checking the shared
set for `id` (with the result it saw), invoking the Download Executor
for `id`, or committing the ledger append for `id`. -/
inductive Ev where
  | check (w : Nat) (id : Str) (seen : Bool)
  | download (w : Nat) (id : Str)
  | append (w : Nat) (id : Str)
deriving DecidableEq

/-- The ids recorded by the ledger appends of a trace. -/
def recordedIds (τ : List Ev) : List Str :=
  τ.filterMap fun e =>
    match e with
    | .append _ id => some id
    | _ => none

/-- Modelled from the spec: a `check` returns membership of the id in
the set of appends committed so far. -/
def checkConsistent (τ : List Ev) : Prop :=
  ∀ i w id b, τ[i]? = some (.check w id b) →
    b = (recordedIds (τ.take i)).contains id

/-- Modelled from the spec: every Download Executor invocation is
preceded by a check of its id that came back false, and no append of
that id comes between the check and the download (the serialized
check-then-append window of section 4.4). -/
def downloadGuarded (τ : List Ev) : Prop :=
  ∀ (j w : Nat) (id : Str), τ[j]? = some (.download w id) →
    ∃ i, i < j ∧ τ[i]? = some (.check w id false) ∧
      ∀ (k w' : Nat), i < k → k < j → τ[k]? ≠ some (.append w' id)

/-- A trace respecting the orchestration discipline of the spec. -/
def specTrace (τ : List Ev) : Prop := checkConsistent τ ∧ downloadGuarded τ

theorem mem_recordedIds_of_append {τ : List Ev} {i w : Nat} {id : Str}
    (h : τ[i]? = some (.append w id)) : id ∈ recordedIds τ := by
  apply List.mem_filterMap.mpr
  refine ⟨.append w id, ?_, rfl⟩
  exact List.getElem?_mem h

/-! ### Properties of the record line -/

theorem recordLine_no_nl {id : Str} {ts : Nat} {title : Str}
    (hid : '\n' ∉ id) (ht : '\n' ∉ title) :
    '\n' ∉ recordLine id ts title := by
  unfold recordLine
  intro hm
  rcases List.mem_append.mp hm with hm | hm
  · rcases List.mem_append.mp hm with hm | hm
    · rcases List.mem_append.mp hm with hm | hm
      · rcases List.mem_append.mp hm with hm | hm
        · rcases List.mem_append.mp hm with hm | hm
          · exact hid hm
          · simp at hm
        · exact (natDecimal_chars hm).2.1 rfl
      · simp at hm
    · exact ht hm
  · simp at hm

theorem recordLine_getLast? (id : Str) (ts : Nat) (title : Str) :
    (recordLine id ts title).getLast? = some '"' := by
  unfold recordLine
  exact getLast?_append_of_getLast? (by simp) _

theorem isWs_quote : isWs '"' = false := by decide

theorem recordLine_assoc (id : Str) (ts : Nat) (title : Str) :
    recordLine id ts title
      = id ++ ' ' :: (natDecimal ts ++ ' ' :: '"' :: (title ++ ['"'])) := by
  simp [recordLine]

theorem firstToken_recordLine {id : Str} (hne : id ≠ [])
    (hid : ∀ c ∈ id, isWs c = false) (ts : Nat) (title : Str) :
    firstToken (recordLine id ts title) = some id := by
  rw [recordLine_assoc, firstToken_append_tail hne hid]

/-! ## Claims -/

/-- C1: for any episode id, across any number of sync invocations
(including concurrent units of work within one run), the Download
Executor is invoked for that id at most once after the first successful
ledger append records it — in any trace respecting the spec's
orchestration discipline, no download of an id occurs after an append
of that id. -/
theorem c1_at_most_once (τ : List Ev) (hτ : specTrace τ)
    (i j w w' : Nat) (id : Str) (hij : i < j)
    (hi : τ[i]? = some (.append w id)) :
    τ[j]? ≠ some (.download w' id) := by
  intro hj
  rcases hτ.2 j w' id hj with ⟨k, hkj, hcheck, hnoapp⟩
  rcases Nat.lt_trichotomy k i with hki | hek | hik
  · exact hnoapp i w hki hij hi
  · subst hek
    rw [hi] at hcheck
    simp at hcheck
  · have hmem : id ∈ recordedIds (τ.take k) := by
      have h' : (τ.take k)[i]? = some (.append w id) := by
        rw [List.getElem?_take_of_lt hik]
        exact hi
      exact mem_recordedIds_of_append h'
    have hfalse := hτ.1 k w' id false hcheck
    have htrue : (recordedIds (τ.take k)).contains id = true :=
      List.elem_iff.mpr hmem
    rw [htrue] at hfalse
    exact Bool.false_ne_true hfalse

/-- Witness for C1 at a concrete two-event trace: an append of `"a"`
followed by a check that sees it. -/
theorem c1_at_most_once_witness :
    specTrace [Ev.append 0 ['a'], Ev.check 1 ['a'] true] ∧
    [Ev.append 0 ['a'], Ev.check 1 ['a'] true][0]?
      = some (Ev.append 0 ['a']) ∧
    [Ev.append 0 ['a'], Ev.check 1 ['a'] true][1]?
      ≠ some (Ev.download 7 ['a']) := by
  have hcc : checkConsistent [Ev.append 0 ['a'], Ev.check 1 ['a'] true] := by
    intro i w id b h
    match i with
    | 0 => simp at h
    | 1 =>
      simp only [List.getElem?_cons_succ, List.getElem?_cons_zero,
        Option.some.injEq, Ev.check.injEq] at h
      obtain ⟨rfl, rfl, rfl⟩ := h
      decide
    | n + 2 => simp at h
  have hdg : downloadGuarded [Ev.append 0 ['a'], Ev.check 1 ['a'] true] := by
    intro j w id h
    match j with
    | 0 => simp at h
    | 1 => simp at h
    | n + 2 => simp at h
  exact ⟨⟨hcc, hdg⟩, rfl,
    c1_at_most_once _ ⟨hcc, hdg⟩ 0 1 0 7 ['a'] Nat.zero_lt_one rfl⟩

/-- C2: the claim says `append` returns an `IoError` when the path is a
directory or the store cannot be opened or written, and never terminates
the process.  The code does return the error for a failed open, but for
a directory path it terminates the process via `std::process::exit(1)`,
and a failed write panics through `.unwrap()`; this theorem records the
actual behavior on each of those inputs. -/
theorem c2_append_error_behavior :
    (∀ (io : IoEnv) (id : Str) (ts : Nat) (ep : DownloadedEpisode),
      append io .directory id ts ep = .processExit 1) ∧
    (∀ (id : Str) (ts : Nat) (ep : DownloadedEpisode),
      append ⟨false, true⟩ .absent id ts ep
        = .ioError "failed to open tracker file") ∧
    (∀ (prior id : Str) (ts : Nat) (ep : DownloadedEpisode),
      append ⟨false, true⟩ (.file prior) id ts ep
        = .ioError "failed to open tracker file") ∧
    (∀ (id : Str) (ts : Nat) (ep : DownloadedEpisode),
      append ⟨true, false⟩ .absent id ts ep = .panicked) ∧
    (∀ (prior id : Str) (ts : Nat) (ep : DownloadedEpisode),
      append ⟨true, false⟩ (.file prior) id ts ep = .panicked) :=
  ⟨fun _ _ _ _ => rfl, fun _ _ _ => rfl, fun _ _ _ _ => rfl,
    fun _ _ _ => rfl, fun _ _ _ _ => rfl⟩

/-- C3: loading from a nonexistent path yields an empty ledger — one
whose `contains_episode` is false for every id — rather than an error. -/
theorem c3_load_missing_empty :
    load .absent = .ok ⟨[]⟩ ∧
    ∀ id : Str, contains_episode ⟨[]⟩ id = false :=
  ⟨rfl, fun _ => rfl⟩

/-- C4: after a successful `append` of id `"ep1"` with title `"Hello"`
onto a prior store content (empty or newline-terminated, as every
content the tracker writes is), reloading the store yields a ledger
that contains `"ep1"`. -/
theorem c4_round_trip (p : Str) (ts : Nat)
    (hp : p = [] ∨ p.getLast? = some '\n') (c : Str)
    (happ : append ⟨true, true⟩ (.file p) ['e', 'p', '1'] ts
      ⟨['H', 'e', 'l', 'l', 'o']⟩ = .ok c) :
    ∃ d, load (.file c) = .ok d ∧
      contains_episode d ['e', 'p', '1'] = true := by
  have hc : c = p ++ recordLine ['e', 'p', '1'] ts ['H', 'e', 'l', 'l', 'o']
      ++ ['\n'] := by
    have h0 := happ
    simp only [append, Bool.not_true, Bool.false_eq_true, if_neg,
      not_false_iff, AppendResult.ok.injEq] at h0
    exact h0.symm
  subst hc
  refine ⟨⟨parseContent _⟩, rfl, ?_⟩
  rw [contains_episode_iff]
  rw [parse_append hp
    (recordLine_no_nl (by decide) (by decide))
    (recordLine_getLast? _ _ _) isWs_quote]
  rw [firstToken_recordLine (by decide) (by decide)]
  simp

/-- Witness for C4: the concrete empty prior content and timestamp 0. -/
theorem c4_round_trip_witness :
    (([] : Str) = [] ∨ ([] : Str).getLast? = some '\n') ∧
    ∃ d, load (.file (recordLine ['e', 'p', '1'] 0 ['H', 'e', 'l', 'l', 'o']
        ++ ['\n'])) = .ok d ∧
      contains_episode d ['e', 'p', '1'] = true :=
  ⟨Or.inl rfl, c4_round_trip [] 0 (Or.inl rfl) _ rfl⟩

/-- C6: a successful `append` concatenates exactly one newline-free
record followed by one newline onto the prior content, keeps the
store newline-terminated, and preserves membership of every previously
recorded id in the reloaded ledger. -/
theorem c6_append_frame (p id : Str) (ts : Nat) (title : Str)
    (hp : p = [] ∨ p.getLast? = some '\n')
    (hid : '\n' ∉ id) (ht : '\n' ∉ title) :
    append ⟨true, true⟩ (.file p) id ts ⟨title⟩
        = .ok (p ++ recordLine id ts title ++ ['\n']) ∧
    '\n' ∉ recordLine id ts title ∧
    (p ++ recordLine id ts title ++ ['\n']).getLast? = some '\n' ∧
    ∀ (x : Str) (d d' : DownloadedEpisodes),
      load (.file p) = .ok d →
      load (.file (p ++ recordLine id ts title ++ ['\n'])) = .ok d' →
      contains_episode d x = true → contains_episode d' x = true := by
  refine ⟨rfl, recordLine_no_nl hid ht, by simp, ?_⟩
  intro x d d' hld hld' hmem
  have hd : d = ⟨parseContent p⟩ := by
    simpa [load] using hld.symm
  have hd' : d' = ⟨parseContent (p ++ recordLine id ts title ++ ['\n'])⟩ := by
    simpa [load] using hld'.symm
  subst hd
  subst hd'
  rw [contains_episode_iff] at hmem ⊢
  rw [parse_append hp (recordLine_no_nl hid ht)
    (recordLine_getLast? _ _ _) isWs_quote]
  exact List.mem_append_left _ hmem

/-- Witness for C6: empty prior content, id `"a"`, title `"t"`. -/
theorem c6_append_frame_witness :
    (([] : Str) = [] ∨ ([] : Str).getLast? = some '\n') ∧
    ('\n' ∉ (['a'] : Str)) ∧ ('\n' ∉ (['t'] : Str)) ∧
    append ⟨true, true⟩ (.file []) ['a'] 3 ⟨['t']⟩
      = .ok ([] ++ recordLine ['a'] 3 ['t'] ++ ['\n']) :=
  ⟨Or.inl rfl, by decide, by decide,
    (c6_append_frame [] ['a'] 3 ['t'] (Or.inl rfl) (by decide) (by decide)).1⟩

/-- C7: a successful `append` writes the prior bytes followed by the
single line `<id> <timestamp> "<title>"` and a newline — the title is
written verbatim between the quotes, with no escaping, for every title;
and for whitespace-free nonempty id and title the line splits into
exactly the three whitespace-separated fields, the third being the
quoted title. -/
theorem c7_record_format (p id : Str) (ts : Nat) (title : Str)
    (hidne : id ≠ []) (hid : ∀ c ∈ id, isWs c = false)
    (htw : ∀ c ∈ title, isWs c = false) :
    append ⟨true, true⟩ (.file p) id ts ⟨title⟩
        = .ok (p ++ (id ++ [' '] ++ natDecimal ts ++ [' ', '"'] ++ title
          ++ ['"']) ++ ['\n']) ∧
    splitWs (recordLine id ts title)
        = [id, natDecimal ts, '"' :: (title ++ ['"'])] := by
  refine ⟨rfl, ?_⟩
  rw [recordLine_assoc]
  rw [splitWs_append_ws isWs_space id _, splitWs_no_ws hidne hid]
  rw [splitWs_append_ws isWs_space (natDecimal ts) _,
    splitWs_no_ws (natDecimal_ne_nil ts)
      (fun c hc => (natDecimal_chars hc).1)]
  have hq : ('"' :: (title ++ ['"']) : Str) ≠ [] := by simp
  have hqw : ∀ c ∈ ('"' :: (title ++ ['"']) : Str), isWs c = false := by
    intro c hc
    rcases List.mem_cons.mp hc with h | h
    · subst h
      exact isWs_quote
    · rcases List.mem_append.mp h with h | h
      · exact htw c h
      · have hcq : c = '"' := by simpa using h
        subst hcq
        exact isWs_quote
  rw [splitWs_no_ws hq hqw]
  rfl

/-- Witness for C7: id `"a"`, timestamp 10, title `"t"`. -/
theorem c7_record_format_witness :
    ((['a'] : Str) ≠ []) ∧
    splitWs (recordLine ['a'] 10 ['t'])
      = [['a'], natDecimal 10, '"' :: (['t'] ++ ['"'])] :=
  ⟨by decide,
    (c7_record_format [] ['a'] 10 ['t'] (by decide) (by decide)
      (by decide)).2⟩

/-- C5 counterexample: with the single subscription `"Alpha"` and a
filter matching nothing, the post-filter set is empty, yet the sync
pipeline of `main.rs` succeeds with an empty selection instead of
failing — the claim that the emptiness check runs on the post-filter
set is false on the code. -/
theorem c5_counterexample :
    (filterConfigs ⟨[(['A', 'l', 'p', 'h', 'a'], ⟨[]⟩)]⟩
        (some (compileFilter ['x']))).entries = [] ∧
    syncSelection ⟨[(['A', 'l', 'p', 'h', 'a'], ⟨[]⟩)]⟩
        (some (compileFilter ['x'])) = some ⟨[]⟩ := by
  decide

/-- C5 (amended): `main.rs` performs the non-emptiness check on the
unfiltered subscription mapping, before applying the name filter; an
empty post-filter set is not an error. -/
theorem c5_amended_check_prefilter (cfgs : PodcastConfigs)
    (filt : Option Pattern) :
    (cfgs.entries = [] → syncSelection cfgs filt = none) ∧
    (cfgs.entries ≠ [] → syncSelection cfgs filt
        = some (filterConfigs cfgs filt)) := by
  constructor
  · intro h
    simp [syncSelection, assert_not_empty, h]
  · intro h
    simp [syncSelection, assert_not_empty, h]

/-- Witness for the amended C5: a one-entry mapping with a
nothing-matching filter. -/
theorem c5_amended_check_prefilter_witness :
    ((⟨[(['A'], ⟨[]⟩)]⟩ : PodcastConfigs).entries ≠ []) ∧
    syncSelection ⟨[(['A'], ⟨[]⟩)]⟩ (some (compileFilter ['x']))
      = some (filterConfigs ⟨[(['A'], ⟨[]⟩)]⟩ (some (compileFilter ['x']))) :=
  ⟨by decide, (c5_amended_check_prefilter _ _).2 (by decide)⟩

/-- C8: `load` takes only the first whitespace-delimited token of each
line — `parseContent` is the per-line first-token map, and a line with
extra trailing fields yields the same id as the bare id line. -/
theorem c8_first_token_only (s : Str) :
    parseContent s = (splitNl (trim s)).filterMap firstToken ∧
    ∀ id rest : Str, id ≠ [] → (∀ c ∈ id, isWs c = false) →
      firstToken (id ++ ' ' :: rest) = some id ∧ firstToken id = some id := by
  refine ⟨parseContent_norm s, ?_⟩
  intro id rest hne hws
  refine ⟨firstToken_append_tail hne hws rest, ?_⟩
  unfold firstToken
  rw [splitWs_no_ws hne hws]
  rfl

/-- Witness for C8: id `"a"` with trailing fields `"42"`. -/
theorem c8_first_token_only_witness :
    ((['a'] : Str) ≠ []) ∧ (∀ c ∈ (['a'] : Str), isWs c = false) ∧
    firstToken (['a'] ++ ' ' :: ['4', '2']) = some ['a'] ∧
    firstToken ['a'] = some ['a'] := by
  refine ⟨by decide, by decide, ?_, ?_⟩
  · exact ((c8_first_token_only []).2 ['a'] ['4', '2'] (by decide)
      (by decide)).1
  · exact ((c8_first_token_only []).2 ['a'] ['4', '2'] (by decide)
      (by decide)).2

/-- C9: the compiled subscription filter matches case-insensitively —
names equal up to letter case match identically — and with
subscriptions `{"Alpha", "Beta"}` and pattern `"alp"` only `"Alpha"`
survives the filter. -/
theorem c9_filter_case_insensitive :
    (∀ pat s t : Str, lowerStr s = lowerStr t →
      isMatch (compileFilter pat) s = isMatch (compileFilter pat) t) ∧
    filterConfigs
        ⟨[(['A', 'l', 'p', 'h', 'a'], ⟨[]⟩), (['B', 'e', 't', 'a'], ⟨[]⟩)]⟩
        (some (compileFilter ['a', 'l', 'p']))
      = ⟨[(['A', 'l', 'p', 'h', 'a'], ⟨[]⟩)]⟩ := by
  constructor
  · intro pat s t h
    simp [isMatch, compileFilter, h]
  · decide

/-- Witness for C9: `"A"` and `"a"` agree under the filter `"alp"`. -/
theorem c9_filter_case_insensitive_witness :
    lowerStr ['A'] = lowerStr ['a'] ∧
    isMatch (compileFilter ['a', 'l', 'p']) ['A']
      = isMatch (compileFilter ['a', 'l', 'p']) ['a'] :=
  ⟨by decide,
    c9_filter_case_insensitive.1 ['a', 'l', 'p'] ['A'] ['a'] (by decide)⟩

/-- C10: when an episode id contains internal whitespace (it begins
with a non-whitespace character but contains a whitespace character),
only its first whitespace-delimited token survives the ledger
round-trip: after an `append` and a `load`, `contains_episode` is false
for the id itself and true for its first token. -/
theorem c10_ws_in_id (p id : Str) (ts : Nat) (title : Str)
    (hp : p = [] ∨ p.getLast? = some '\n')
    (hnlid : '\n' ∉ id) (hnlt : '\n' ∉ title)
    (hhead : ∃ c, id.head? = some c ∧ isWs c = false)
    (hws : ∃ c ∈ id, isWs c = true) :
    ∀ (c : Str) (d : DownloadedEpisodes),
      append ⟨true, true⟩ (.file p) id ts ⟨title⟩ = .ok c →
      load (.file c) = .ok d →
      contains_episode d id = false ∧
      contains_episode d (id.takeWhile fun ch => !isWs ch) = true := by
  intro c d happ hload
  have hc : c = p ++ recordLine id ts title ++ ['\n'] := by
    have h0 := happ
    simp only [append, Bool.not_true, Bool.false_eq_true, if_neg,
      not_false_iff, AppendResult.ok.injEq] at h0
    exact h0.symm
  subst hc
  have hd : d = ⟨parseContent (p ++ recordLine id ts title ++ ['\n'])⟩ := by
    simpa [load] using hload.symm
  subst hd
  rcases hhead with ⟨c₀, hh, hc₀⟩
  obtain ⟨idt, rfl⟩ : ∃ idt, id = c₀ :: idt := by
    cases id with
    | nil => simp at hh
    | cons a t =>
      simp at hh
      exact ⟨t, by rw [hh]⟩
  have hparse : parseContent (p ++ recordLine (c₀ :: idt) ts title ++ ['\n'])
      = parseContent p
        ++ [(c₀ :: idt).takeWhile fun ch => !isWs ch] := by
    rw [parse_append hp (recordLine_no_nl hnlid hnlt)
      (recordLine_getLast? _ _ _) isWs_quote, recordLine_assoc]
    unfold firstToken
    rw [splitWs_append_ws isWs_space, splitWs_cons_tok hc₀]
    simp [List.takeWhile_cons, hc₀]
  constructor
  · rcases hws with ⟨cw, hcwmem, hcw⟩
    cases hcontains : contains_episode
        ⟨parseContent (p ++ recordLine (c₀ :: idt) ts title ++ ['\n'])⟩
        (c₀ :: idt) with
    | false => rfl
    | true =>
      exfalso
      have hmem := (contains_episode_iff _ _).mp hcontains
      rw [hparse] at hmem
      rcases List.mem_append.mp hmem with hmem | hmem
      · have := parseContent_no_ws hmem cw hcwmem
        rw [hcw] at this
        exact absurd this (by decide)
      · have hid_eq : c₀ :: idt
            = (c₀ :: idt).takeWhile fun ch => !isWs ch := by
          simpa using hmem
        have hcw2 : cw ∈ (c₀ :: idt).takeWhile fun ch => !isWs ch := by
          rw [← hid_eq]
          exact hcwmem
        have hfalse : isWs cw = false := by
          simpa using List.mem_takeWhile_imp hcw2
        rw [hcw] at hfalse
        exact absurd hfalse (by decide)
  · rw [contains_episode_iff, hparse]
    exact List.mem_append_right _ (by simp)

/-- Witness for C10: id `"ab cd"`, title `"t"`, empty prior content. -/
theorem c10_ws_in_id_witness :
    ('\n' ∉ (['a', 'b', ' ', 'c', 'd'] : Str)) ∧
    (∃ c, (['a', 'b', ' ', 'c', 'd'] : Str).head? = some c
      ∧ isWs c = false) ∧
    (∃ c ∈ (['a', 'b', ' ', 'c', 'd'] : Str), isWs c = true) ∧
    contains_episode
        ⟨parseContent (recordLine ['a', 'b', ' ', 'c', 'd'] 5 ['t']
          ++ ['\n'])⟩
        ['a', 'b', ' ', 'c', 'd'] = false ∧
    contains_episode
        ⟨parseContent (recordLine ['a', 'b', ' ', 'c', 'd'] 5 ['t']
          ++ ['\n'])⟩
        ((['a', 'b', ' ', 'c', 'd'] : Str).takeWhile fun ch => !isWs ch)
      = true := by
  have h := c10_ws_in_id [] ['a', 'b', ' ', 'c', 'd'] 5 ['t'] (Or.inl rfl)
    (by decide) (by decide) ⟨'a', rfl, by decide⟩ ⟨' ', by decide, by decide⟩
    (recordLine ['a', 'b', ' ', 'c', 'd'] 5 ['t'] ++ ['\n'])
    ⟨parseContent (recordLine ['a', 'b', ' ', 'c', 'd'] 5 ['t'] ++ ['\n'])⟩
    rfl rfl
  exact ⟨by decide, ⟨'a', rfl, by decide⟩, ⟨' ', by decide, by decide⟩,
    h.1, h.2⟩
